import Mathlib

/-!
Verification of the session/command orchestration layer of `trashAItool`
(`trashAItool.py` and `commands.py`).

Modelling conventions:
* Python strings are Lean `String`s; the helpers below implement the exact
  Python primitives used by the source (`str.strip`, `str.split(maxsplit=1)`,
  `str.lower`, `str.upper`, `str.replace(ch, "")`) on the underlying
  character lists, restricted to ASCII (all data handled by the tool's
  command layer is ASCII; Python's The unicode extensions of these methods
  are never exercised by the claims).
* The storage directory is modelled as a finite association list from file
  stem (the file name without its `.json` extension) to the parsed record it
  contains.  Real directories have unique file names; stem uniqueness is
  carried as an explicit invariant.  Per the stated assumption that no
  external process modifies the directory, every file present was produced
  by `save_conversation` and therefore parses and carries the three required
  fields, so `load_history`'s extension filter and parse-failure discard
  are identity on this model.
* The model call (`client.responses.create`) is an opaque collaborator: an
  explicit `oracle : List Message → Except Unit String` parameter, `.error`
  modelling a raised exception.  Clock reads (`datetime.now()`) are explicit
  `String` parameters.
-/

namespace TrashTool

/-- The underlying character list of a constructed string. -/
lemma data_mk (l : List Char) : (String.mk l).data = l := rfl

/-- Strings with equal character lists are equal. -/
lemma eq_of_data_eq {a b : String} (h : a.data = b.data) : a = b := by
  cases a
  cases b
  exact congrArg String.mk h

/-- Python whitespace characters recognised by `str.strip` / `str.split`
(ASCII subset: space, tab, newline, carriage return, vertical tab, form feed). -/
def pySpace (c : Char) : Bool :=
  c == ' ' || c == '\t' || c == '\n' || c == '\r' || c == '\x0b' || c == '\x0c'

/-- Python `str.strip()` on the character list: drop whitespace from both ends. -/
def stripL (l : List Char) : List Char :=
  List.rdropWhile pySpace (l.dropWhile pySpace)

/-- Python `str.strip()`. -/
def pyStrip (s : String) : String := ⟨stripL s.data⟩

/-- Python `str.lower()` (ASCII). -/
def pyLower (s : String) : String := ⟨s.data.map Char.toLower⟩

/-- Python `str.upper()` (ASCII). -/
def pyUpper (s : String) : String := ⟨s.data.map Char.toUpper⟩

/-- The constant `INVALID_FILENAME_CHARS` from `trashAItool.py`. -/
def INVALID_FILENAME_CHARS : List Char := ['<', '>', ':', '"', '/', '\\', '|', '?', '*']

/-- The constant `WINDOWS_RESERVED` from `trashAItool.py`. -/
def WINDOWS_RESERVED : List String :=
  ["CON", "PRN", "AUX", "NUL", "COM1", "COM2", "COM3", "COM4", "COM5", "COM6",
   "COM7", "COM8", "COM9", "LPT1", "LPT2", "LPT3", "LPT4", "LPT5", "LPT6",
   "LPT7", "LPT8", "LPT9"]

/-- One step of the removal loop: `name = name.replace(ch, "")`. -/
def removeChar (l : List Char) (ch : Char) : List Char := l.filter (fun c => c != ch)

/-- The `for ch in INVALID_FILENAME_CHARS: name = name.replace(ch, "")` loop. -/
def removeInvalid (l : List Char) : List Char :=
  INVALID_FILENAME_CHARS.foldl removeChar l

/-- Function `sanitize_filename` from `trashAItool.py`: strip each illegal character,
trim surrounding whitespace, and underscore-prepend names whose uppercase form
is a reserved Windows device name. -/
def sanitize_filename (s : String) : String :=
  let name : String := ⟨stripL (removeInvalid s.data)⟩
  if WINDOWS_RESERVED.contains (pyUpper name) then ⟨'_' :: name.data⟩ else name

example : sanitize_filename "CON" = "_CON" := by decide
example : sanitize_filename "con" = "_con" := by decide
example : sanitize_filename "  a<b>c  " = "abc" := by decide

/-! ### Lemmas about `stripL` -/

lemma dropWhile_cons_eq {p : Char → Bool} : ∀ {l : List Char} {c : Char} {t : List Char},
    l.dropWhile p = c :: t → p c = false := by
  intro l
  induction l with
  | nil => intro c t h; simp [List.dropWhile] at h
  | cons a l ih =>
    intro c t h
    rw [List.dropWhile_cons] at h
    split_ifs at h with hp
    · exact ih h
    · injection h with h1 _
      subst h1
      simpa using hp

lemma stripL_head {l : List Char} {c : Char} {t : List Char}
    (h : stripL l = c :: t) : pySpace c = false := by
  have hp : stripL l <+: l.dropWhile pySpace := List.rdropWhile_prefix _ _
  obtain ⟨r, hr⟩ := hp
  rw [h] at hr
  exact dropWhile_cons_eq hr.symm

lemma dropWhile_head?_eq {p : Char → Bool} {l : List Char} {c : Char}
    (h : (l.dropWhile p).head? = some c) : p c = false := by
  cases hd : l.dropWhile p with
  | nil => rw [hd] at h; simp at h
  | cons a t =>
    rw [hd] at h
    simp only [List.head?_cons, Option.some.injEq] at h
    exact h ▸ dropWhile_cons_eq hd

lemma stripL_last? {l : List Char} {c : Char}
    (h : (stripL l).getLast? = some c) : pySpace c = false := by
  have hs : stripL l = (((l.dropWhile pySpace).reverse).dropWhile pySpace).reverse := rfl
  rw [hs, List.getLast?_reverse] at h
  exact dropWhile_head?_eq h

lemma rdropWhile_eq_self_of_last {p : Char → Bool} {l : List Char} {c : Char}
    (h : l.getLast? = some c) (hc : p c = false) : List.rdropWhile p l = l := by
  obtain ⟨l', rfl⟩ := List.getLast?_eq_some_iff.mp h
  exact List.rdropWhile_concat_neg p l' c (by simp [hc])

lemma dropWhile_stripL (l : List Char) :
    (stripL l).dropWhile pySpace = stripL l := by
  cases hs : stripL l with
  | nil => simp
  | cons c t =>
    have hc := stripL_head hs
    simp [List.dropWhile_cons, hc]

lemma stripL_idem (l : List Char) : stripL (stripL l) = stripL l := by
  show List.rdropWhile pySpace ((stripL l).dropWhile pySpace) = stripL l
  rw [dropWhile_stripL]
  exact List.rdropWhile_idempotent _ _

lemma stripL_underscore_cons (l : List Char) :
    stripL ('_' :: stripL l) = '_' :: stripL l := by
  cases hs : stripL l with
  | nil => decide
  | cons c t =>
    have hlast : ∃ d, (c :: t).getLast? = some d :=
      ⟨(c :: t).getLast (by simp), List.getLast?_eq_getLast _ (by simp)⟩
    obtain ⟨d, hd⟩ := hlast
    have hpd : pySpace d = false :=
      stripL_last? (show (stripL l).getLast? = some d by rw [hs]; exact hd)
    show List.rdropWhile pySpace (('_' :: c :: t).dropWhile pySpace) = _
    have h1 : ('_' :: c :: t).dropWhile pySpace = '_' :: c :: t := by
      simp [List.dropWhile_cons, pySpace]
    rw [h1]
    exact rdropWhile_eq_self_of_last (by rw [List.getLast?_cons_cons]; exact hd) hpd

lemma stripL_sublist (l : List Char) : (stripL l).Sublist l := by
  have h1 : stripL l <+: l.dropWhile pySpace := List.rdropWhile_prefix _ _
  have h2 : (l.dropWhile pySpace).Sublist l := List.dropWhile_sublist _
  exact h1.sublist.trans h2

/-! ### Lemmas about `removeInvalid` -/

lemma foldl_removeChar (cs : List Char) (l : List Char) :
    cs.foldl removeChar l = l.filter (fun c => !cs.contains c) := by
  induction cs generalizing l with
  | nil => simp [List.foldl]
  | cons c cs ih =>
    rw [List.foldl_cons, ih, removeChar, List.filter_filter]
    apply List.filter_congr
    intro a _
    by_cases h1 : a = c <;> by_cases h2 : a ∈ cs <;>
      simp [h1, h2, List.contains_cons]

lemma removeInvalid_eq_filter (l : List Char) :
    removeInvalid l = l.filter (fun c => !INVALID_FILENAME_CHARS.contains c) :=
  foldl_removeChar _ _

lemma not_mem_removeInvalid {c : Char} (hc : c ∈ INVALID_FILENAME_CHARS) (l : List Char) :
    c ∉ removeInvalid l := by
  rw [removeInvalid_eq_filter]
  intro hmem
  have := List.of_mem_filter hmem
  simp [List.contains, List.elem_iff] at this
  exact this hc

lemma removeInvalid_of_clean {l : List Char}
    (h : ∀ c ∈ l, ¬ c ∈ INVALID_FILENAME_CHARS) : removeInvalid l = l := by
  rw [removeInvalid_eq_filter]
  apply List.filter_eq_self.mpr
  intro a ha
  simp [List.contains, List.elem_iff]
  exact h a ha

lemma underscore_not_reserved (l : List Char) :
    WINDOWS_RESERVED.contains ⟨'_' :: l⟩ = false := by
  rw [Bool.eq_false_iff]
  intro h
  have hm : (⟨'_' :: l⟩ : String) ∈ WINDOWS_RESERVED := List.elem_iff.mp h
  have h2 : some '_' ∈ WINDOWS_RESERVED.map (fun s : String => s.data.head?) :=
    List.mem_map_of_mem _ hm
  revert h2
  decide

lemma clean_of_stripL_removeInvalid {s : List Char} {c : Char}
    (hc : c ∈ stripL (removeInvalid s)) : c ∉ INVALID_FILENAME_CHARS := by
  intro hill
  exact not_mem_removeInvalid hill s ((stripL_sublist _).subset hc)

lemma sanitize_unfold (s : String) :
    sanitize_filename s =
      if WINDOWS_RESERVED.contains (pyUpper ⟨stripL (removeInvalid s.data)⟩)
      then ⟨'_' :: stripL (removeInvalid s.data)⟩
      else ⟨stripL (removeInvalid s.data)⟩ := rfl

lemma sanitize_data (s : String) :
    (sanitize_filename s).data = '_' :: stripL (removeInvalid s.data) ∨
    (sanitize_filename s).data = stripL (removeInvalid s.data) := by
  rw [sanitize_unfold]
  split_ifs <;> simp

/-- Claim C5: `sanitize_filename` leaves no character of the illegal set in its
output, its output carries no surrounding whitespace, it is idempotent, and
the reserved-name check is case-insensitive, sending `"CON"` to `"_CON"` and
`"con"` to an underscore-prefixed name. -/
theorem claim_C5_sanitize (x : String) :
    ((sanitize_filename x).data.all (fun c => !INVALID_FILENAME_CHARS.contains c) = true)
    ∧ pyStrip (sanitize_filename x) = sanitize_filename x
    ∧ sanitize_filename (sanitize_filename x) = sanitize_filename x
    ∧ sanitize_filename "CON" = "_CON"
    ∧ (sanitize_filename "con").data.head? = some '_' := by
  refine ⟨?_, ?_, ?_, by decide, by decide⟩
  · rw [List.all_eq_true]
    intro c hc
    rcases sanitize_data x with hd | hd <;> rw [hd] at hc
    · rcases List.mem_cons.mp hc with rfl | hc'
      · decide
      · simp only [Bool.not_eq_true']
        rw [Bool.eq_false_iff]
        intro hcon
        exact clean_of_stripL_removeInvalid hc' (List.elem_iff.mp hcon)
    · simp only [Bool.not_eq_true']
      rw [Bool.eq_false_iff]
      intro hcon
      exact clean_of_stripL_removeInvalid hc (List.elem_iff.mp hcon)
  · rw [sanitize_unfold]
    split_ifs
    · show (⟨stripL ('_' :: stripL (removeInvalid x.data))⟩ : String) = _
      rw [stripL_underscore_cons]
    · show (⟨stripL (stripL (removeInvalid x.data))⟩ : String) = _
      rw [stripL_idem]
  · have hclean : ∀ c ∈ stripL (removeInvalid x.data), c ∉ INVALID_FILENAME_CHARS :=
      fun c hc => clean_of_stripL_removeInvalid hc
    by_cases hres : WINDOWS_RESERVED.contains
        (pyUpper ⟨stripL (removeInvalid x.data)⟩) = true
    · -- reserved branch: the result starts with an underscore
      have hx : sanitize_filename x = ⟨'_' :: stripL (removeInvalid x.data)⟩ := by
        rw [sanitize_unfold, if_pos hres]
      have hrm : removeInvalid ('_' :: stripL (removeInvalid x.data)) =
          '_' :: stripL (removeInvalid x.data) := by
        apply removeInvalid_of_clean
        intro c hc
        rcases List.mem_cons.mp hc with rfl | hc'
        · decide
        · exact hclean c hc'
      rw [hx, sanitize_unfold]
      simp only [data_mk]
      rw [hrm, stripL_underscore_cons]
      have hup : pyUpper (⟨'_' :: stripL (removeInvalid x.data)⟩ : String) =
          ⟨'_' :: (stripL (removeInvalid x.data)).map Char.toUpper⟩ := by
        simp [pyUpper]
      rw [hup, underscore_not_reserved]
      simp
    · -- unreserved branch: the result is the stripped clean name itself
      have hx : sanitize_filename x = ⟨stripL (removeInvalid x.data)⟩ := by
        rw [sanitize_unfold, if_neg hres]
      have hrm : removeInvalid (stripL (removeInvalid x.data)) =
          stripL (removeInvalid x.data) := removeInvalid_of_clean hclean
      rw [hx, sanitize_unfold]
      simp only [data_mk]
      rw [hrm, stripL_idem]
      rw [if_neg hres]

/-! ### Decimal representation: `Nat.repr` is injective

`unique_path` builds candidate names `f"{base}-{i}"`; `str(i)` is modelled by
`Nat.repr`.  The injectivity proof goes through an explicit most-significant
first digit list `decDigits` equal to what `Nat.toDigitsCore` produces. -/

/-- The decimal digit characters of `n`, most significant first. -/
def decDigits (n : Nat) : List Char :=
  if _h : n < 10 then [Nat.digitChar n]
  else decDigits (n / 10) ++ [Nat.digitChar (n % 10)]
  decreasing_by exact Nat.div_lt_self (by omega) (by omega)

lemma toDigitsCore_eq_decDigits :
    ∀ (f n : Nat) (ds : List Char), n < f →
      Nat.toDigitsCore 10 f n ds = decDigits n ++ ds := by
  intro f
  induction f with
  | zero => intro n ds h; omega
  | succ f ih =>
    intro n ds h
    by_cases hn : n < 10
    · have hdiv : n / 10 = 0 := Nat.div_eq_of_lt hn
      have hmod : n % 10 = n := Nat.mod_eq_of_lt hn
      simp only [Nat.toDigitsCore, hdiv, if_true, hmod]
      rw [decDigits, dif_pos hn]
      simp
    · have hdiv : ¬ n / 10 = 0 := by omega
      simp only [Nat.toDigitsCore, if_neg hdiv]
      rw [ih (n / 10) _ (by omega)]
      rw [show decDigits n = decDigits (n / 10) ++ [Nat.digitChar (n % 10)] from by
        rw [decDigits, dif_neg hn]]
      simp

lemma repr_eq_decDigits (n : Nat) : Nat.repr n = ⟨decDigits n⟩ := by
  show (Nat.toDigitsCore 10 (n + 1) n []).asString = _
  rw [toDigitsCore_eq_decDigits (n + 1) n [] (by omega)]
  simp [List.asString]

/-- The numeric value of a decimal digit character; left inverse data for
`decDigits`. -/
def chVal (c : Char) : Nat := c.toNat - 48

/-- Decimal value of a most-significant-first digit character list. -/
def digitsVal (l : List Char) : Nat := l.foldl (fun a c => a * 10 + chVal c) 0

lemma digitChar_val : ∀ n, n < 10 → chVal (Nat.digitChar n) = n := by decide

lemma digitsVal_concat (l : List Char) (c : Char) :
    digitsVal (l ++ [c]) = digitsVal l * 10 + chVal c := by
  simp [digitsVal, List.foldl_append]

lemma digitsVal_decDigits (n : Nat) : digitsVal (decDigits n) = n := by
  induction n using Nat.strong_induction_on with
  | _ n ih =>
    by_cases h : n < 10
    · rw [decDigits, dif_pos h]
      simp [digitsVal, digitChar_val n h]
    · rw [decDigits, dif_neg h]
      rw [digitsVal_concat]
      rw [ih (n / 10) (Nat.div_lt_self (by omega) (by omega))]
      have h2 := digitChar_val (n % 10) (by omega)
      omega

lemma decDigits_injective {m n : Nat} (h : decDigits m = decDigits n) : m = n := by
  rw [← digitsVal_decDigits m, ← digitsVal_decDigits n, h]

lemma natRepr_injective {m n : Nat} (h : Nat.repr m = Nat.repr n) : m = n := by
  rw [repr_eq_decDigits, repr_eq_decDigits] at h
  exact decDigits_injective (congrArg String.data h)

/-! ### `unique_path`

The storage directory is modelled, for naming purposes, by the list of record
file stems it contains (`x` stands for file `x.json`); `os.path.exists` on a
candidate path is membership of the candidate stem in that list. -/

/-- Python `os.path.join` of directory, stem and the `.json` extension. -/
def jsonPath (dir stem : String) : String := dir ++ "/" ++ stem ++ ".json"

/-- Python `os.path.exists` on the stem-list model of the directory. -/
def pathExists (files : List String) (stem : String) : Bool := files.contains stem

/-- Candidate name `f"{base}-{i}"`. -/
def candName (base : String) (i : Nat) : String := base ++ "-" ++ Nat.repr i

lemma candName_injective {base : String} {i j : Nat}
    (h : candName base i = candName base j) : i = j := by
  have hd := congrArg String.data h
  rw [candName, candName, String.data_append, String.data_append] at hd
  have h2 : (Nat.repr i).data = (Nat.repr j).data := List.append_cancel_left hd
  exact natRepr_injective (eq_of_data_eq h2)

/-- The `while True` loop of `unique_path`, with explicit fuel.
`unique_path` runs it with fuel `files.length + 1`; `searchFrom_isSome` below
shows this fuel always suffices (among any `|files| + 1` pairwise-distinct
candidate names, at least one is not an existing stem), which is exactly the
termination argument for the unbounded loop in the source. -/
def searchFrom (files : List String) (base : String) : Nat → Nat → Option String
  | 0, _ => none
  | fuel + 1, i =>
    if pathExists files (candName base i) then searchFrom files base fuel (i + 1)
    else some (candName base i)

/-- Function `unique_path` from `trashAItool.py`: return `(final_name, path)`, appending
the first free `-2`/`-3`/… suffix when the desired name is taken.  The `.getD`
default is dead code: `searchFrom_isSome` shows the search always returns a
candidate within the supplied fuel. -/
def unique_path (files : List String) (base_dir : String) (name : String) :
    String × String :=
  let base := name
  if !pathExists files base then (base, jsonPath base_dir base)
  else
    let c := (searchFrom files base (files.length + 1) 2).getD base
    (c, jsonPath base_dir c)

lemma searchFrom_none {files : List String} {base : String} :
    ∀ {fuel i : Nat}, searchFrom files base fuel i = none →
      ∀ k, k < fuel → pathExists files (candName base (i + k)) = true := by
  intro fuel
  induction fuel with
  | zero => intro i _ k hk; omega
  | succ fuel ih =>
    intro i h k hk
    rw [searchFrom] at h
    split_ifs at h with htaken
    match k with
    | 0 => simpa using htaken
    | k + 1 =>
      have := ih h k (by omega)
      rwa [show i + 1 + k = i + (k + 1) by omega] at this

lemma searchFrom_isSome (files : List String) (base : String) (i : Nat) :
    (searchFrom files base (files.length + 1) i).isSome := by
  rw [Option.isSome_iff_ne_none]
  intro hnone
  have htaken := searchFrom_none hnone
  -- the `files.length + 1` distinct candidates are all members of `files`
  set cands : List String :=
    (List.range (files.length + 1)).map (fun k => candName base (i + k)) with hc
  have hnodup : cands.Nodup := by
    refine List.Nodup.map ?_ (List.nodup_range _)
    intro a b hab
    have := candName_injective hab
    omega
  have hsub : cands ⊆ files := by
    intro s hs
    rw [hc, List.mem_map] at hs
    obtain ⟨k, hk, rfl⟩ := hs
    rw [List.mem_range] at hk
    have := htaken k hk
    rw [pathExists] at this
    exact List.elem_iff.mp this
  have hlen : cands.length ≤ files.length :=
    (List.subperm_of_subset hnodup hsub).length_le
  rw [hc] at hlen
  simp at hlen

lemma searchFrom_some {files : List String} {base : String} :
    ∀ {fuel i : Nat} {c : String}, searchFrom files base fuel i = some c →
      ∃ j, i ≤ j ∧ c = candName base j ∧
        pathExists files (candName base j) = false ∧
        ∀ m, i ≤ m → m < j → pathExists files (candName base m) = true := by
  intro fuel
  induction fuel with
  | zero => intro i c h; rw [searchFrom] at h; exact absurd h (by simp)
  | succ fuel ih =>
    intro i c h
    rw [searchFrom] at h
    split_ifs at h with htaken
    · obtain ⟨j, hij, hcand, hfree, hleast⟩ := ih h
      refine ⟨j, by omega, hcand, hfree, ?_⟩
      intro m him hmj
      rcases Nat.eq_or_lt_of_le him with rfl | hlt
      · exact htaken
      · exact hleast m (by omega) hmj
    · injection h with h1
      subst h1
      exact ⟨i, le_rfl, rfl, by simpa using htaken, fun m him hmi => by omega⟩

/-- Claim C4: Unique-name resolution.  `unique_path` is a total function (the loop's
termination is `searchFrom_isSome`); when no file for `n` exists it returns
`(n, path n)`, and otherwise it returns `(n-i, path (n-i))` for the least
`i ≥ 2` whose candidate has no existing file, chaining through `n-2`, `n-3`, …. -/
theorem claim_C4_unique_path (files : List String) (dir name : String) :
    (pathExists files name = false →
      unique_path files dir name = (name, jsonPath dir name))
    ∧ (pathExists files name = true →
      ∃ i, 2 ≤ i ∧
        unique_path files dir name = (candName name i, jsonPath dir (candName name i)) ∧
        pathExists files (candName name i) = false ∧
        ∀ j, 2 ≤ j → j < i → pathExists files (candName name j) = true) := by
  constructor
  · intro hfree
    rw [unique_path]
    simp [hfree]
  · intro htaken
    obtain ⟨c, hc⟩ := Option.isSome_iff_exists.mp (searchFrom_isSome files name 2)
    obtain ⟨j, h2j, rfl, hfree, hleast⟩ := searchFrom_some hc
    refine ⟨j, h2j, ?_, hfree, fun m h2m hmj => hleast m h2m hmj⟩
    rw [unique_path]
    simp only [htaken, Bool.not_true, Bool.false_eq_true, if_false, hc, Option.getD_some]

/-- Witness for C4 at a concrete directory: with only `x` present, saving a
second `x` resolves to `x-2`; with nothing present, `x` stays `x`. -/
theorem claim_C4_witness :
    unique_path ["x"] "d" "x" = ("x-2", "d/x-2.json")
    ∧ unique_path ["y"] "d" "x" = ("x", "d/x.json") := by
  constructor
  · obtain ⟨i, h2i, heq, hfree, hleast⟩ :=
      (claim_C4_unique_path ["x"] "d" "x").2 (by decide)
    have hi : i = 2 := by
      by_contra hne
      have h3 : 2 < i := lt_of_le_of_ne h2i (Ne.symm hne)
      have := hleast 2 le_rfl h3
      revert this
      decide
    subst hi
    rw [heq]
    decide
  · exact (claim_C4_unique_path ["y"] "d" "x").1 (by decide)

/-! ### Data model: messages, records, session state, directory -/

/-- A chat message (`{"role": ..., "content": ...}` dict in the source). -/
structure Message where
  role : String
  content : String
deriving DecidableEq

/-- A persisted conversation record: the three required fields of a record
file. -/
structure Record where
  name : String
  created : String
  conversation : List Message
deriving DecidableEq

/-- The session fields of `AppState`.  The `client` and `session` fields of
the Python dataclass are external collaborators (model transport, line
editor) and carry no state touched by the claims. -/
structure AppState where
  history_dir : String
  current_name : Option String
  mem : List Message
  history : List Record
  history_by_name : List (String × Record)
deriving DecidableEq

/-- Session state together with the storage directory, the latter modelled
as an association list from file stem to the record stored in
`<stem>.json`. -/
structure World where
  state : AppState
  fs : List (String × Record)
deriving DecidableEq

/-- Python `dict.get(k)` on the insertion-ordered dict model. -/
def alookup : List (String × Record) → String → Option Record
  | [], _ => none
  | p :: t, k => if p.1 == k then some p.2 else alookup t k

/-- Python `dict[k] = v`: overwrite in place when the key is present,
append otherwise. -/
def ainsert (h : List (String × Record)) (k : String) (v : Record) :
    List (String × Record) :=
  if h.any (fun p => p.1 == k) then h.map (fun p => if p.1 == k then (k, v) else p)
  else h ++ [(k, v)]

/-- Python `dict.pop(k, None)` (key removal). -/
def aerase (h : List (String × Record)) (k : String) : List (String × Record) :=
  h.filter (fun p => p.1 != k)

/-- The file stems present in the storage directory. -/
def stems (fs : List (String × Record)) : List String := fs.map (·.1)

/-- Writing `<stem>.json` (`open(path, "w")` overwrites an existing file). -/
def fsWrite (fs : List (String × Record)) (stem : String) (r : Record) :
    List (String × Record) :=
  fs.filter (fun p => p.1 != stem) ++ [(stem, r)]

/-- Python `os.remove` of the record file of `stem`. -/
def fsRemove (fs : List (String × Record)) (stem : String) :
    List (String × Record) :=
  fs.filter (fun p => p.1 != stem)

/-- The opaque model call: `.error` models a raised exception. -/
def Oracle : Type := List Message → Except Unit String

/-! ### Operations (`trashAItool.py` / `commands.py`) -/

/-- Function `load_history`: clear `history`/`history_by_name` and rebuild them from
the directory, indexing each record by its declared `name` field.  Under the
stated no-external-writer assumption every file present was written by
`save_conversation`, so it ends in `.json`, parses, and carries the three
required fields: the extension filter and the try/except discard of the
source are the identity here. -/
def load_history (w : World) : World :=
  { w with state := { w.state with
      history := w.fs.map (·.2),
      history_by_name := (w.fs.map (·.2)).foldl (fun h r => ainsert h r.name r) [] } }

inductive LoadResult
  | usage
  | notFound
  | loaded
deriving DecidableEq

/-- Function `load_conversation`: on a catalog hit, replace the active conversation
with (a copy of) the record's message list and bind the name. -/
def load_conversation (w : World) (name : String) : World × LoadResult :=
  match alookup w.state.history_by_name name with
  | none => (w, .notFound)
  | some entry =>
    ({ w with state := { w.state with
        mem := entry.conversation, current_name := some name } }, .loaded)

/-- Function `save_conversation`; `iso` is the `datetime.now().isoformat` reading. -/
def save_conversation (w : World) (name : String) (iso : String) : World :=
  if w.state.mem = [] then w
  else
    let entry0 : Record := { name := name, created := iso, conversation := w.state.mem }
    let final := (unique_path (stems w.fs) w.state.history_dir name).1
    let entry : Record := { entry0 with name := final }
    { state := { w.state with
        history := w.state.history ++ [entry],
        history_by_name := ainsert w.state.history_by_name final entry,
        current_name := some final },
      fs := fsWrite w.fs final entry }

/-- Function `cmd_new` from `commands.py`. -/
def cmd_new (w : World) : World :=
  { w with state := { w.state with mem := [], current_name := none } }

/-- Function `cmd_reload` from `commands.py`. -/
def cmd_reload (w : World) : World := load_history w

/-- Function `cmd_load`: an empty argument is a usage error and does nothing. -/
def cmd_load (w : World) (arg : String) : World × LoadResult :=
  if arg = "" then (w, .usage) else load_conversation w arg

inductive DeleteResult
  | usage
  | notFound
  | fileMissing
  | deleted
deriving DecidableEq

/-- Function `cmd_delete` from `commands.py`. -/
def cmd_delete (w : World) (arg : String) : World × DeleteResult :=
  if arg = "" then (w, .usage)
  else
    match alookup w.state.history_by_name arg with
    | none => (w, .notFound)
    | some _ =>
      if pathExists (stems w.fs) arg = false then (w, .fileMissing)
      else
        ({ state := { w.state with
             history := w.state.history.filter (fun r => r.name != arg),
             history_by_name := aerase w.state.history_by_name arg,
             current_name := if w.state.current_name == some arg then none
                             else w.state.current_name },
           fs := fsRemove w.fs arg }, .deleted)

inductive CompressResult
  | nothing
  | err
  | compressed
deriving DecidableEq

/-- The fixed summarisation instruction appended by `cmd_compress`. -/
def compressInstr : Message :=
  { role := "user",
    content := "Take all conversation context so far and condense it into a comprehensive summary that preserves key facts, decisions, constraints, and open tasks." }

/-- Function `cmd_compress`: the instruction is appended to `state.mem` itself before
the model call, so a raising model call leaves that append behind. -/
def cmd_compress (oracle : Oracle) (w : World) : World × CompressResult :=
  if w.state.mem = [] then (w, .nothing)
  else
    let w1 : World :=
      { w with state := { w.state with mem := w.state.mem ++ [compressInstr] } }
    match oracle w1.state.mem with
    | .error _ => (w1, .err)
    | .ok summary =>
      ({ w1 with state := { w1.state with
          mem := [{ role := "assistant", content := summary }] } }, .compressed)

inductive ExitResult
  | exited
  | err
deriving DecidableEq

/-- The constant `TITLE_PROMPT` from `trashAItool.py`. -/
def TITLE_PROMPT : String :=
  "Summarize this conversation into a three word title. No punctuation."

/-- Function `generate_title_from_mem`: queries the model on the temporary list
`state.mem + [prompt]`, leaving `state.mem` untouched. -/
def generate_title_from_mem (oracle : Oracle) (w : World) : Except Unit String :=
  oracle (w.state.mem ++ [{ role := "user", content := TITLE_PROMPT }])

/-- Python truthiness of `state.current_name` (`None` and `""` are falsy). -/
def truthy : Option String → Bool
  | none => false
  | some s => s != ""

/-- Function `cmd_exit`; `stamp` is the `strftime` fallback reading and `iso` the
`isoformat` reading consumed by the inner save.  `.exited` models the
`SystemExit` raise, `.err` a propagating model-call failure. -/
def cmd_exit (oracle : Oracle) (stamp iso : String) (w : World) : World × ExitResult :=
  if w.state.mem = [] then (w, .exited)
  else if truthy w.state.current_name then
    (save_conversation w (w.state.current_name.getD "") iso, .exited)
  else
    match generate_title_from_mem oracle w with
    | .error _ => (w, .err)
    | .ok title =>
      let name := if sanitize_filename title = "" then stamp
                  else sanitize_filename title
      (save_conversation w name iso, .exited)

/-! ### Command dispatch (`run_command` and the command table) -/

/-- Loop-level signal of a handled command: continue the loop, terminate
(`SystemExit`), or propagate a model-call failure. -/
inductive Sig
  | cont
  | halt
  | err
deriving DecidableEq

/-- One row of the command table: name, `takes_arg` flag (absent rows default
to false via `cmd.get("takes_arg", False)`), and the handler closure.
Zero-argument handlers are invoked with `none`. -/
structure CmdEntry where
  command : String
  takes_arg : Bool := false
  func : Option String → World → World × Sig

/-- The `command_table` built in `main`, its handler closures made explicit
over the oracle and the clock readings. -/
def command_table (oracle : Oracle) (stamp iso : String) : List CmdEntry :=
  [ { command := "help", func := fun _ w => (w, .cont) },
    { command := "list", func := fun _ w => (w, .cont) },
    { command := "load", takes_arg := true,
      func := fun a w => ((cmd_load w (a.getD "")).1, .cont) },
    { command := "delete", takes_arg := true,
      func := fun a w => ((cmd_delete w (a.getD "")).1, .cont) },
    { command := "compress", func := fun _ w =>
        match cmd_compress oracle w with
        | (w', .err) => (w', .err)
        | (w', _) => (w', .cont) },
    { command := "reload", func := fun _ w => (cmd_reload w, .cont) },
    { command := "new", func := fun _ w => (cmd_new w, .cont) },
    { command := "exit", func := fun _ w =>
        match cmd_exit oracle stamp iso w with
        | (w', .exited) => (w', .halt)
        | (w', .err) => (w', .err) } ]

/-- First component of `normalized.split(maxsplit=1)`. -/
def headToken (s : String) : String :=
  ⟨(s.data.dropWhile pySpace).takeWhile (fun c => !pySpace c)⟩

/-- Second component of `normalized.split(maxsplit=1)`, `none` when the
remainder after the first whitespace run is empty. -/
def restToken (s : String) : Option String :=
  let r := ((s.data.dropWhile pySpace).dropWhile (fun c => !pySpace c)).dropWhile pySpace
  if r = [] then none else some ⟨r⟩

/-- Result of a dispatch attempt: the resulting world, the loop signal, and
the boolean `run_command` returns (`true` = handled). -/
structure RunResult where
  world : World
  sig : Sig
  handled : Bool
deriving DecidableEq

/-- Function `run_command` from `trashAItool.py`. -/
def run_command (table : List CmdEntry) (w : World) (line : String) : RunResult :=
  let normalized := pyStrip line
  if normalized = "" then ⟨w, .cont, false⟩
  else
    let name := pyLower (headToken normalized)
    let arg := match restToken normalized with
      | some r => pyStrip r
      | none => ""
    match table.find? (fun c => c.command == name) with
    | none => ⟨w, .cont, false⟩
    | some cmd =>
      if cmd.takes_arg then
        let r := cmd.func (some arg) w
        ⟨r.1, r.2, true⟩
      else if arg ≠ "" then ⟨w, .cont, false⟩
      else
        let r := cmd.func none w
        ⟨r.1, r.2, true⟩

/-- The fresh `AppState` built in `main` before the startup `load_history`. -/
def initState (dir : String) : AppState :=
  { history_dir := dir, current_name := none, mem := [], history := [],
    history_by_name := [] }

/-- Process start: fresh state, then the startup refresh. -/
def boot (dir : String) (fs : List (String × Record)) : World :=
  load_history { state := initState dir, fs := fs }

/-! ### Dictionary and directory lemmas -/

lemma alookup_map_update_self {k : String} {v : Record} :
    ∀ {h : List (String × Record)}, h.any (fun p => p.1 == k) = true →
      alookup (h.map (fun p => if p.1 == k then (k, v) else p)) k = some v := by
  intro h
  induction h with
  | nil => intro hany; simp at hany
  | cons p t ih =>
    intro hany
    rw [List.map_cons]
    by_cases hp : (p.1 == k) = true
    · rw [if_pos hp]
      simp [alookup]
    · rw [if_neg hp]
      have hany' : t.any (fun p => p.1 == k) = true := by
        rw [List.any_cons] at hany
        simpa [hp] using hany
      rw [alookup, if_neg hp]
      exact ih hany'

lemma alookup_append_single_self {k : String} {v : Record} :
    ∀ {h : List (String × Record)}, h.any (fun p => p.1 == k) = false →
      alookup (h ++ [(k, v)]) k = some v := by
  intro h
  induction h with
  | nil => intro _; simp [alookup]
  | cons p t ih =>
    intro hany
    rw [List.any_cons] at hany
    rw [List.cons_append, alookup]
    have hp : (p.1 == k) = false := by
      rcases Bool.or_eq_false_iff.mp hany with ⟨h1, _⟩
      exact h1
    rw [if_neg (by simp [hp])]
    exact ih (Bool.or_eq_false_iff.mp hany).2

lemma alookup_ainsert_self (h : List (String × Record)) (k : String) (v : Record) :
    alookup (ainsert h k v) k = some v := by
  rw [ainsert]
  split_ifs with hany
  · exact alookup_map_update_self hany
  · exact alookup_append_single_self (Bool.eq_false_iff.mpr hany)

lemma alookup_map_update_ne {k n : String} {v : Record} (hne : n ≠ k) :
    ∀ (h : List (String × Record)),
      alookup (h.map (fun p => if p.1 == k then (k, v) else p)) n = alookup h n := by
  intro h
  induction h with
  | nil => simp
  | cons p t ih =>
    rw [List.map_cons]
    by_cases hp : (p.1 == k) = true
    · rw [if_pos hp]
      have hkn : (k == n) = false := by
        simp only [beq_eq_false_iff_ne]
        exact fun hkn => hne hkn.symm
      have hpn : (p.1 == n) = false := by
        have hp' : p.1 = k := by simpa using hp
        simp [hp', hkn]
      rw [alookup, if_neg (by simp [hkn]), alookup, if_neg (by simp [hpn])]
      exact ih
    · rw [if_neg hp]
      rw [alookup, alookup]
      by_cases hpn : (p.1 == n) = true
      · rw [if_pos hpn, if_pos hpn]
      · rw [if_neg hpn, if_neg hpn]
        exact ih

lemma alookup_append_single_ne {k n : String} {v : Record} (hne : n ≠ k) :
    ∀ (h : List (String × Record)), alookup (h ++ [(k, v)]) n = alookup h n := by
  intro h
  induction h with
  | nil =>
    simp only [List.nil_append, alookup]
    rw [if_neg (by simp only [beq_iff_eq]; exact fun hkn => hne hkn.symm)]
  | cons p t ih =>
    rw [List.cons_append, alookup, alookup]
    by_cases hpn : (p.1 == n) = true
    · rw [if_pos hpn, if_pos hpn]
    · rw [if_neg hpn, if_neg hpn]
      exact ih

lemma alookup_ainsert_ne {n k : String} (hne : n ≠ k)
    (h : List (String × Record)) (v : Record) :
    alookup (ainsert h k v) n = alookup h n := by
  rw [ainsert]
  split_ifs with hany
  · exact alookup_map_update_ne hne h
  · exact alookup_append_single_ne hne h

lemma alookup_ainsert_isSome (h : List (String × Record)) (k : String) (v : Record)
    (n : String) :
    (alookup (ainsert h k v) n).isSome ↔ n = k ∨ (alookup h n).isSome := by
  by_cases hnk : n = k
  · subst hnk
    rw [alookup_ainsert_self]
    simp
  · rw [alookup_ainsert_ne hnk]
    simp [hnk]

lemma alookup_aerase (h : List (String × Record)) (k n : String) :
    alookup (aerase h k) n = if n = k then none else alookup h n := by
  induction h with
  | nil => simp [aerase, alookup]
  | cons p t ih =>
    rw [aerase, List.filter_cons]
    by_cases hp : (p.1 == k) = true
    · have : (p.1 != k) = false := by simp [bne]; simpa using hp
      rw [this]
      simp only [Bool.false_eq_true, if_false]
      rw [aerase] at ih
      rw [ih]
      by_cases hnk : n = k
      · simp [hnk]
      · have hp' : p.1 = k := by simpa using hp
        have hpn : (p.1 == n) = false := by
          simp only [beq_eq_false_iff_ne, hp']
          exact fun hkn => hnk hkn.symm
        rw [if_neg hnk, if_neg hnk, alookup, if_neg (by simp [hpn])]
    · have : (p.1 != k) = true := by simp [bne]; simpa using hp
      rw [this]
      simp only [if_true]
      rw [alookup, alookup]
      by_cases hpn : (p.1 == n) = true
      · rw [if_pos hpn, if_pos hpn]
        have hp' : p.1 = n := by simpa using hpn
        have hnk : ¬ n = k := by
          intro hnk
          exact absurd (by simp [hp', hnk] : (p.1 == k) = true) (by simpa using hp)
        rw [if_neg hnk]
      · rw [if_neg hpn, if_neg hpn]
        rw [aerase] at ih
        rw [ih]

lemma alookup_build_isSome (rs : List Record) :
    ∀ (acc : List (String × Record)) (n : String),
      (alookup (rs.foldl (fun h r => ainsert h r.name r) acc) n).isSome ↔
        n ∈ rs.map Record.name ∨ (alookup acc n).isSome := by
  induction rs with
  | nil => intro acc n; simp
  | cons r rs ih =>
    intro acc n
    rw [List.foldl_cons, ih, alookup_ainsert_isSome]
    simp only [List.map_cons, List.mem_cons]
    tauto

lemma pathExists_iff {files : List String} {n : String} :
    pathExists files n = true ↔ n ∈ files := by
  rw [pathExists]
  exact List.elem_iff

lemma mem_stems_fsWrite {fs : List (String × Record)} {k n : String} {r : Record} :
    n ∈ stems (fsWrite fs k r) ↔ (n ∈ stems fs ∧ n ≠ k) ∨ n = k := by
  rw [stems, fsWrite, List.map_append]
  simp only [List.mem_append, List.map_cons, List.map_nil, List.mem_singleton]
  constructor
  · rintro (hmem | rfl)
    · rw [List.mem_map] at hmem
      obtain ⟨p, hp, rfl⟩ := hmem
      rw [List.mem_filter] at hp
      exact Or.inl ⟨List.mem_map_of_mem _ hp.1, by simpa using hp.2⟩
    · exact Or.inr rfl
  · rintro (⟨hmem, hne⟩ | rfl)
    · left
      rw [stems, List.mem_map] at hmem
      obtain ⟨p, hp, rfl⟩ := hmem
      exact List.mem_map_of_mem _ (List.mem_filter.mpr ⟨hp, by simpa using hne⟩)
    · right; rfl

lemma mem_stems_fsRemove {fs : List (String × Record)} {k n : String} :
    n ∈ stems (fsRemove fs k) ↔ n ∈ stems fs ∧ n ≠ k := by
  rw [stems, fsRemove]
  constructor
  · intro hmem
    rw [List.mem_map] at hmem
    obtain ⟨p, hp, rfl⟩ := hmem
    rw [List.mem_filter] at hp
    exact ⟨List.mem_map_of_mem _ hp.1, by simpa using hp.2⟩
  · rintro ⟨hmem, hne⟩
    rw [stems, List.mem_map] at hmem
    obtain ⟨p, hp, rfl⟩ := hmem
    exact List.mem_map_of_mem _ (List.mem_filter.mpr ⟨hp, by simpa using hne⟩)

lemma unique_path_free {files : List String} {dir name : String}
    (h : pathExists files name = false) :
    unique_path files dir name = (name, jsonPath dir name) := by
  rw [unique_path]
  simp only [h, Bool.not_false, if_true]

lemma unique_path_hit {files : List String} {dir name c : String}
    (h : pathExists files name = true)
    (hc : searchFrom files name (files.length + 1) 2 = some c) :
    unique_path files dir name = (c, jsonPath dir c) := by
  rw [unique_path]
  simp only [h, Bool.not_true, Bool.false_eq_true, if_false, hc, Option.getD_some]

lemma unique_path_fresh (files : List String) (dir name : String) :
    pathExists files (unique_path files dir name).1 = false := by
  by_cases h : pathExists files name = true
  · obtain ⟨c, hc⟩ := Option.isSome_iff_exists.mp (searchFrom_isSome files name 2)
    obtain ⟨j, _, rfl, hfree, _⟩ := searchFrom_some hc
    rw [unique_path_hit h hc]
    exact hfree
  · have h' : pathExists files name = false := Bool.eq_false_iff.mpr h
    rw [unique_path_free h']
    exact h'

/-- The record that `save_conversation` builds and writes for a non-empty
conversation. -/
def savedEntry (w : World) (name iso : String) : Record :=
  { name := (unique_path (stems w.fs) w.state.history_dir name).1,
    created := iso, conversation := w.state.mem }

lemma save_eq {w : World} (hmem : w.state.mem ≠ []) (name iso : String) :
    save_conversation w name iso =
      { state := { w.state with
          history := w.state.history ++ [savedEntry w name iso],
          history_by_name := ainsert w.state.history_by_name
            (unique_path (stems w.fs) w.state.history_dir name).1
            (savedEntry w name iso),
          current_name := some (unique_path (stems w.fs) w.state.history_dir name).1 },
        fs := fsWrite w.fs (unique_path (stems w.fs) w.state.history_dir name).1
          (savedEntry w name iso) } := by
  rw [save_conversation, if_neg hmem]
  rfl

lemma save_empty {w : World} (hmem : w.state.mem = []) (name iso : String) :
    save_conversation w name iso = w := by
  rw [save_conversation, if_pos hmem]

lemma cmd_delete_usage {w : World} {arg : String} (h : arg = "") :
    cmd_delete w arg = (w, .usage) := by
  rw [cmd_delete, if_pos h]

lemma cmd_delete_notFound {w : World} {arg : String} (h1 : arg ≠ "")
    (h2 : alookup w.state.history_by_name arg = none) :
    cmd_delete w arg = (w, .notFound) := by
  simp only [cmd_delete, if_neg h1, h2]

lemma cmd_delete_missing {w : World} {arg : String} {r : Record} (h1 : arg ≠ "")
    (h2 : alookup w.state.history_by_name arg = some r)
    (h3 : pathExists (stems w.fs) arg = false) :
    cmd_delete w arg = (w, .fileMissing) := by
  simp only [cmd_delete, if_neg h1, h2, h3, if_true]

lemma cmd_delete_deleted {w : World} {arg : String} {r : Record} (h1 : arg ≠ "")
    (h2 : alookup w.state.history_by_name arg = some r)
    (h3 : pathExists (stems w.fs) arg = true) :
    cmd_delete w arg =
      ({ state := { w.state with
           history := w.state.history.filter (fun x => x.name != arg),
           history_by_name := aerase w.state.history_by_name arg,
           current_name := if w.state.current_name == some arg then none
                           else w.state.current_name },
         fs := fsRemove w.fs arg }, .deleted) := by
  simp only [cmd_delete, if_neg h1, h2, h3, Bool.true_eq_false, if_false]

/-! ### The catalog–filesystem invariant (C1) -/

/-- The storage directory is well formed: file stems are pairwise distinct
(a real directory cannot hold two files of one name) and each record's
declared `name` field equals its file stem.  Both hold of every file that
`save_conversation` writes, so — per C1's assumption that no external
process modifies the directory — they hold of the directory at process
start. -/
def FsGood (fs : List (String × Record)) : Prop :=
  (stems fs).Nodup ∧ ∀ p ∈ fs, p.2.name = p.1

/-- The claim C1 invariant proper: a name is a key of the in-memory catalog iff a
record file of that stem exists in the storage directory. -/
def CatalogMatches (w : World) : Prop :=
  ∀ n, (alookup w.state.history_by_name n).isSome ↔ pathExists (stems w.fs) n = true

/-- The full preserved invariant: well-formed directory plus catalog
correspondence. -/
def Inv (w : World) : Prop := FsGood w.fs ∧ CatalogMatches w

lemma load_history_inv {w : World} (hfs : FsGood w.fs) : Inv (load_history w) := by
  refine ⟨hfs, ?_⟩
  intro n
  show (alookup ((w.fs.map (·.2)).foldl (fun h r => ainsert h r.name r) []) n).isSome ↔ _
  rw [alookup_build_isSome]
  have hnames : (w.fs.map (·.2)).map Record.name = stems w.fs := by
    rw [List.map_map, stems]
    exact List.map_congr_left (fun p hp => hfs.2 p hp)
  rw [hnames]
  simp only [alookup, Option.isSome_none, Bool.false_eq_true, or_false]
  exact pathExists_iff.symm

lemma save_inv {w : World} (hinv : Inv w) (name iso : String) :
    Inv (save_conversation w name iso) := by
  obtain ⟨⟨hnodup, hnm⟩, hcat⟩ := hinv
  by_cases hmem : w.state.mem = []
  · rw [save_empty hmem]
    exact ⟨⟨hnodup, hnm⟩, hcat⟩
  · rw [save_eq hmem name iso]
    have hfree : pathExists (stems w.fs)
        (unique_path (stems w.fs) w.state.history_dir name).1 = false :=
      unique_path_fresh _ _ _
    set final := (unique_path (stems w.fs) w.state.history_dir name).1 with hf
    refine ⟨⟨?_, ?_⟩, ?_⟩
    · -- stem uniqueness is preserved: the new stem was fresh
      show (stems (fsWrite w.fs final (savedEntry w name iso))).Nodup
      simp only [stems, fsWrite, List.map_append]
      apply List.Nodup.append
      · exact ((List.filter_sublist _).map _).nodup hnodup
      · simp
      · intro a ha hb
        simp only [List.map_cons, List.map_nil, List.mem_singleton] at hb
        subst hb
        rw [List.mem_map] at ha
        obtain ⟨p, hp, hpa⟩ := ha
        rw [List.mem_filter] at hp
        have : p.1 ≠ final := by simpa using hp.2
        exact this hpa
    · -- name fields still match stems
      intro p hp
      have hp2 : p ∈ w.fs.filter (fun p => p.1 != final) ++
          [(final, savedEntry w name iso)] := hp
      rw [List.mem_append] at hp2
      rcases hp2 with hp | hp
      · exact hnm p (List.mem_of_mem_filter hp)
      · rw [List.mem_singleton] at hp
        subst hp
        rfl
    · intro n
      show (alookup (ainsert w.state.history_by_name final _) n).isSome ↔ _
      rw [alookup_ainsert_isSome, pathExists_iff, mem_stems_fsWrite, hcat n, pathExists_iff]
      constructor
      · rintro (rfl | hmem2)
        · exact Or.inr rfl
        · refine Or.inl ⟨hmem2, fun hn => ?_⟩
          rw [hn] at hmem2
          rw [pathExists_iff.mpr hmem2] at hfree
          exact Bool.true_eq_false.mp hfree
      · rintro (⟨hmem2, _⟩ | rfl)
        · exact Or.inr hmem2
        · exact Or.inl rfl

lemma delete_inv {w : World} (hinv : Inv w) (arg : String) :
    Inv (cmd_delete w arg).1 := by
  obtain ⟨⟨hnodup, hnm⟩, hcat⟩ := hinv
  by_cases harg : arg = ""
  · rw [cmd_delete_usage harg]
    exact ⟨⟨hnodup, hnm⟩, hcat⟩
  · cases hlook : alookup w.state.history_by_name arg with
    | none =>
      rw [cmd_delete_notFound harg hlook]
      exact ⟨⟨hnodup, hnm⟩, hcat⟩
    | some r =>
      by_cases hpath : pathExists (stems w.fs) arg = true
      · rw [cmd_delete_deleted harg hlook hpath]
        refine ⟨⟨?_, ?_⟩, ?_⟩
        · show (stems (fsRemove w.fs arg)).Nodup
          simp only [stems, fsRemove]
          exact ((List.filter_sublist _).map _).nodup hnodup
        · intro p hp
          exact hnm p (List.mem_of_mem_filter hp)
        · intro n
          show (alookup (aerase w.state.history_by_name arg) n).isSome ↔ _
          rw [alookup_aerase, pathExists_iff, mem_stems_fsRemove]
          split_ifs with hn
          · subst hn
            simp

          · rw [← pathExists_iff, hcat n]
            simp [hn]
      · rw [cmd_delete_missing harg hlook (Bool.eq_false_iff.mpr hpath)]
        exact ⟨⟨hnodup, hnm⟩, hcat⟩

/-- Claim C1: Catalog–filesystem consistency.  Starting from a well-formed
directory (which the no-external-writer assumption provides), the invariant
"`n` is a catalog key iff `n.json` exists in the storage directory" holds
after the startup refresh and is preserved by `save_conversation`,
`cmd_delete`, and `cmd_reload`; save and delete mutate file and catalog in
one atomic state transformation here, so no state between operations shows a
stale index. -/
theorem claim_C1_catalog_fs (dir : String) (fs : List (String × Record))
    (w : World) (n iso : String) :
    (FsGood fs → Inv (boot dir fs))
    ∧ (Inv w → Inv (save_conversation w n iso))
    ∧ (Inv w → Inv (cmd_delete w n).1)
    ∧ (Inv w → Inv (cmd_reload w)) := by
  refine ⟨fun hfs => ?_, fun hinv => save_inv hinv n iso,
    fun hinv => delete_inv hinv n, fun hinv => load_history_inv hinv.1⟩
  show Inv (load_history { state := initState dir, fs := fs })
  exact load_history_inv hfs

/-- Witness for C1 at a concrete directory with one well-formed record. -/
theorem claim_C1_witness :
    FsGood [("a", { name := "a", created := "t", conversation := [] })]
    ∧ Inv (boot "d" [("a", { name := "a", created := "t", conversation := [] })]) := by
  have hfs : FsGood [("a", { name := "a", created := "t", conversation := [] })] := by
    constructor
    · decide
    · intro p hp
      rw [List.mem_singleton] at hp
      subst hp
      rfl
  exact ⟨hfs,
    (claim_C1_catalog_fs "d" [("a", { name := "a", created := "t", conversation := [] })]
      (boot "d" []) "" "").1 hfs⟩

/-! ### Save contract (C6) and round-trip (C7) -/

/-- Claim C6: Save contract.  With an empty active conversation, save performs no
filesystem write and leaves the whole state (catalog, catalog order, bound
name) unchanged; with a non-empty one, it builds a record created at the
current time whose conversation is the active conversation, resolves a
unique name starting from the desired one, writes the record file, appends
the record to the catalog order, inserts it into the catalog under the final
name, and binds the final name. -/
theorem claim_C6_save (w : World) (name iso : String) :
    (w.state.mem = [] → save_conversation w name iso = w)
    ∧ (w.state.mem ≠ [] →
        (save_conversation w name iso).fs =
          fsWrite w.fs (unique_path (stems w.fs) w.state.history_dir name).1
            { name := (unique_path (stems w.fs) w.state.history_dir name).1,
              created := iso, conversation := w.state.mem }
        ∧ (save_conversation w name iso).state.history =
            w.state.history ++
              [{ name := (unique_path (stems w.fs) w.state.history_dir name).1,
                 created := iso, conversation := w.state.mem }]
        ∧ (save_conversation w name iso).state.history_by_name =
            ainsert w.state.history_by_name
              (unique_path (stems w.fs) w.state.history_dir name).1
              { name := (unique_path (stems w.fs) w.state.history_dir name).1,
                created := iso, conversation := w.state.mem }
        ∧ (save_conversation w name iso).state.current_name =
            some (unique_path (stems w.fs) w.state.history_dir name).1
        ∧ (save_conversation w name iso).state.mem = w.state.mem) := by
  refine ⟨fun h => save_empty h name iso, fun h => ?_⟩
  rw [save_eq h name iso]
  exact ⟨rfl, rfl, rfl, rfl, rfl⟩

/-- Concrete world used by several witnesses: one unsaved user message. -/
def wOne : World :=
  { state := { history_dir := "d", current_name := none,
               mem := [{ role := "user", content := "hi" }],
               history := [], history_by_name := [] },
    fs := [] }

/-- Witness for C6: a non-empty conversation writes its record, an empty one
changes nothing. -/
theorem claim_C6_witness :
    (save_conversation wOne "x" "t").fs =
      fsWrite wOne.fs (unique_path (stems wOne.fs) wOne.state.history_dir "x").1
        { name := (unique_path (stems wOne.fs) wOne.state.history_dir "x").1,
          created := "t", conversation := wOne.state.mem }
    ∧ save_conversation (cmd_new wOne) "x" "t" = cmd_new wOne :=
  ⟨((claim_C6_save wOne "x" "t").2 (by decide)).1,
   (claim_C6_save (cmd_new wOne) "x" "t").1 (by decide)⟩

/-- A later chat turn appended to the active conversation (the session loop's
`state.mem.append`). -/
def appendMsg (w : World) (m : Message) : World :=
  { w with state := { w.state with mem := w.state.mem ++ [m] } }

/-- Claim C7: Round-trip.  Saving a non-empty conversation and loading it back by
the resolved final name succeeds, restores exactly the saved message
sequence, and binds that name; because loading copies the record's message
list, a subsequent mutation of the active conversation leaves the stored
record unchanged. -/
theorem claim_C7_roundtrip (w : World) (name iso : String) (m : Message)
    (hne : w.state.mem ≠ []) :
    (load_conversation (save_conversation w name iso)
        (unique_path (stems w.fs) w.state.history_dir name).1).2 = .loaded
    ∧ (load_conversation (save_conversation w name iso)
        (unique_path (stems w.fs) w.state.history_dir name).1).1.state.mem = w.state.mem
    ∧ (load_conversation (save_conversation w name iso)
        (unique_path (stems w.fs) w.state.history_dir name).1).1.state.current_name =
        some (unique_path (stems w.fs) w.state.history_dir name).1
    ∧ alookup (appendMsg (load_conversation (save_conversation w name iso)
          (unique_path (stems w.fs) w.state.history_dir name).1).1 m).state.history_by_name
        (unique_path (stems w.fs) w.state.history_dir name).1 =
        some { name := (unique_path (stems w.fs) w.state.history_dir name).1,
               created := iso, conversation := w.state.mem } := by
  have hlook : alookup (save_conversation w name iso).state.history_by_name
      (unique_path (stems w.fs) w.state.history_dir name).1 =
      some { name := (unique_path (stems w.fs) w.state.history_dir name).1,
             created := iso, conversation := w.state.mem } := by
    rw [save_eq hne name iso]
    exact alookup_ainsert_self _ _ _
  have hload : load_conversation (save_conversation w name iso)
      (unique_path (stems w.fs) w.state.history_dir name).1 =
      ({ save_conversation w name iso with
          state := { (save_conversation w name iso).state with
            mem := w.state.mem,
            current_name :=
              some (unique_path (stems w.fs) w.state.history_dir name).1 } },
       .loaded) := by
    simp only [load_conversation, hlook]
  rw [hload]
  refine ⟨rfl, rfl, rfl, ?_⟩
  show alookup (save_conversation w name iso).state.history_by_name _ = _
  exact hlook

/-- Witness for C7 at a concrete one-message conversation. -/
theorem claim_C7_witness :
    (load_conversation (save_conversation wOne "x" "t")
        (unique_path (stems wOne.fs) wOne.state.history_dir "x").1).1.state.mem =
      wOne.state.mem :=
  (claim_C7_roundtrip wOne "x" "t" { role := "user", content := "later" }
    (by decide)).2.1

/-! ### Compress error behaviour (C2) -/

lemma cmd_compress_err {w : World} {oracle : Oracle} {e : Unit}
    (hne : w.state.mem ≠ [])
    (herr : oracle (w.state.mem ++ [compressInstr]) = .error e) :
    cmd_compress oracle w =
      ({ w with state := { w.state with mem := w.state.mem ++ [compressInstr] } },
       .err) := by
  simp only [cmd_compress, if_neg hne, herr]

/-- A model call that always raises. -/
def failOracle : Oracle := fun _ => .error ()

/-- Claim C2 counterexample: with a one-message conversation and a raising model
call, compress leaves the active conversation changed — the fixed
summarisation instruction it appended before the call stays behind. -/
theorem claim_C2_counterexample :
    (cmd_compress failOracle wOne).1.state.mem ≠ wOne.state.mem := by
  decide

/-- Claim C2 amended: compress is not atomic under a model-call failure.  For a
non-empty conversation whose model call raises, the error propagates and the
active conversation is left equal to its prior value with the fixed
instruction message appended (no summary replacement occurs; catalog,
directory, and bound name are untouched). -/
theorem claim_C2_amended (w : World) (oracle : Oracle) (e : Unit)
    (hne : w.state.mem ≠ [])
    (herr : oracle (w.state.mem ++ [compressInstr]) = .error e) :
    cmd_compress oracle w =
      ({ w with state := { w.state with mem := w.state.mem ++ [compressInstr] } },
       .err) :=
  cmd_compress_err hne herr

/-- Witness for the amended C2 at the concrete one-message world. -/
theorem claim_C2_witness :
    cmd_compress failOracle wOne =
      ({ wOne with state := { wOne.state with
          mem := wOne.state.mem ++ [compressInstr] } }, .err) :=
  claim_C2_amended wOne failOracle () (by decide) rfl

/-! ### Delete contract (C8) -/

/-- The empty world: empty catalog, empty directory, no conversation. -/
def wEmpty : World :=
  { state := { history_dir := "d", current_name := none, mem := [],
               history := [], history_by_name := [] },
    fs := [] }

/-- Claim C8 counterexample: the empty name is absent from the (empty) catalog,
yet `delete ""` reports a usage error, not NotFound. -/
theorem claim_C8_counterexample :
    alookup wEmpty.state.history_by_name "" = none
    ∧ (cmd_delete wEmpty "").2 ≠ DeleteResult.notFound := by
  decide

/-- Claim C8 amended: the delete contract as claimed, restricted to non-empty
names (the empty name short-circuits to a usage error before the catalog is
consulted).  Absent names fail with NotFound and change nothing; an indexed
name without a backing file fails with FileMissing and changes nothing; on
success the file and every catalog entry of that name are removed, the bound
name is cleared exactly when it equals the deleted name, the active
conversation is untouched, and an immediately repeated delete fails with
NotFound. -/
theorem claim_C8_delete (w : World) (n : String) (hn : n ≠ "") :
    (alookup w.state.history_by_name n = none → cmd_delete w n = (w, .notFound))
    ∧ (∀ r, alookup w.state.history_by_name n = some r →
        pathExists (stems w.fs) n = false → cmd_delete w n = (w, .fileMissing))
    ∧ (∀ r, alookup w.state.history_by_name n = some r →
        pathExists (stems w.fs) n = true →
        (cmd_delete w n).2 = .deleted
        ∧ (cmd_delete w n).1.fs = fsRemove w.fs n
        ∧ (cmd_delete w n).1.state.history =
            w.state.history.filter (fun x => x.name != n)
        ∧ (cmd_delete w n).1.state.history_by_name = aerase w.state.history_by_name n
        ∧ alookup (cmd_delete w n).1.state.history_by_name n = none
        ∧ pathExists (stems (cmd_delete w n).1.fs) n = false
        ∧ (cmd_delete w n).1.state.current_name =
            (if w.state.current_name = some n then none else w.state.current_name)
        ∧ (cmd_delete w n).1.state.mem = w.state.mem
        ∧ (cmd_delete (cmd_delete w n).1 n).2 = .notFound) := by
  refine ⟨fun hnone => cmd_delete_notFound hn hnone,
    fun r hsome hmiss => cmd_delete_missing hn hsome hmiss,
    fun r hsome hhit => ?_⟩
  have hdel := cmd_delete_deleted hn hsome hhit
  have hbn : (cmd_delete w n).1.state.history_by_name =
      aerase w.state.history_by_name n := by rw [hdel]
  have hlook2 : alookup (cmd_delete w n).1.state.history_by_name n = none := by
    rw [hbn, alookup_aerase, if_pos rfl]
  refine ⟨by rw [hdel], by rw [hdel], by rw [hdel], hbn, hlook2, ?_, ?_, by rw [hdel],
    cmd_delete_notFound hn hlook2 ▸ rfl⟩
  · rw [hdel]
    show pathExists (stems (fsRemove w.fs n)) n = false
    rw [Bool.eq_false_iff]
    intro hmem
    have := mem_stems_fsRemove.mp (pathExists_iff.mp hmem)
    exact this.2 rfl
  · rw [hdel]
    show (if w.state.current_name == some n then none else w.state.current_name) = _
    by_cases hc : w.state.current_name = some n
    · rw [if_pos (by simp [hc]), if_pos hc]
    · rw [if_neg (by simp [hc]), if_neg hc]

/-- A world holding one saved record `a` (indexed and on disk). -/
def wDel : World :=
  { state := { history_dir := "d", current_name := none, mem := [],
               history := [{ name := "a", created := "t", conversation := [] }],
               history_by_name :=
                 [("a", { name := "a", created := "t", conversation := [] })] },
    fs := [("a", { name := "a", created := "t", conversation := [] })] }

/-- Witness for the amended C8: a world holding one record `a`, deleting `a`
succeeds, removes file and catalog entry, and a repeat fails NotFound. -/
theorem claim_C8_witness :
    (cmd_delete wDel "a").2 = DeleteResult.deleted
    ∧ alookup (cmd_delete wDel "a").1.state.history_by_name "a" = none
    ∧ pathExists (stems (cmd_delete wDel "a").1.fs) "a" = false
    ∧ (cmd_delete (cmd_delete wDel "a").1 "a").2 = DeleteResult.notFound := by
  have h := (claim_C8_delete wDel "a" (by decide)).2.2
    { name := "a", created := "t", conversation := [] } (by decide) (by decide)
  exact ⟨h.1, h.2.2.2.2.1, h.2.2.2.2.2.1, h.2.2.2.2.2.2.2.2⟩

/-! ### Exit contract (C9) -/

lemma unique_path_taken (dir : String) {files : List String} {name : String}
    (h : pathExists files name = true) :
    ∃ i, 2 ≤ i ∧ (unique_path files dir name).1 = candName name i ∧
      pathExists files (candName name i) = false := by
  obtain ⟨c, hc⟩ := Option.isSome_iff_exists.mp (searchFrom_isSome files name 2)
  obtain ⟨j, h2j, rfl, hfree, _⟩ := searchFrom_some hc
  exact ⟨j, h2j, by rw [unique_path_hit h hc], hfree⟩

lemma cmd_exit_empty {w : World} (oracle : Oracle) (stamp iso : String)
    (h : w.state.mem = []) : cmd_exit oracle stamp iso w = (w, .exited) := by
  rw [cmd_exit, if_pos h]

lemma cmd_exit_bound {w : World} {n : String} (oracle : Oracle) (stamp iso : String)
    (hmem : w.state.mem ≠ []) (hcn : w.state.current_name = some n) (hne : n ≠ "") :
    cmd_exit oracle stamp iso w = (save_conversation w n iso, .exited) := by
  have ht : truthy (some n) = true := by simpa [truthy] using hne
  simp only [cmd_exit, if_neg hmem, hcn, ht, if_true, Option.getD_some]

lemma cmd_exit_unbound {w : World} {title : String} (oracle : Oracle)
    (stamp iso : String) (hmem : w.state.mem ≠ [])
    (hcn : w.state.current_name = none)
    (hok : oracle (w.state.mem ++ [{ role := "user", content := TITLE_PROMPT }]) =
      .ok title) :
    cmd_exit oracle stamp iso w =
      (save_conversation w
        (if sanitize_filename title = "" then stamp else sanitize_filename title) iso,
       .exited) := by
  have ht : truthy w.state.current_name = false := by rw [hcn]; rfl
  simp only [cmd_exit, if_neg hmem, ht, Bool.false_eq_true, if_false,
    generate_title_from_mem, hok]

/-- Claim C9: Exit contract.  An empty conversation terminates with no save.  A
non-empty conversation bound to a name re-saves under that same desired
name; since that record file already exists, unique-name resolution yields a
fresh `-i` suffixed file (`i ≥ 2`) and the original file survives untouched.
A non-empty unbound conversation titles itself through the model without
mutating the conversation, sanitizes the title, falls back to the
timestamp-derived name when sanitization is empty, saves, and terminates. -/
theorem claim_C9_exit (w : World) (oracle : Oracle) (stamp iso n title : String) :
    (w.state.mem = [] → cmd_exit oracle stamp iso w = (w, .exited))
    ∧ (w.state.mem ≠ [] → w.state.current_name = some n → n ≠ "" →
        pathExists (stems w.fs) n = true →
        cmd_exit oracle stamp iso w = (save_conversation w n iso, .exited)
        ∧ (∃ i, 2 ≤ i ∧
            (save_conversation w n iso).state.current_name = some (candName n i))
        ∧ pathExists (stems (save_conversation w n iso).fs) n = true)
    ∧ (w.state.mem ≠ [] → w.state.current_name = none →
        oracle (w.state.mem ++ [{ role := "user", content := TITLE_PROMPT }]) =
          .ok title →
        cmd_exit oracle stamp iso w =
          (save_conversation w
            (if sanitize_filename title = "" then stamp else sanitize_filename title)
            iso, .exited)) := by
  refine ⟨fun h => cmd_exit_empty oracle stamp iso h,
    fun hmem hcn hne hhit => ⟨cmd_exit_bound oracle stamp iso hmem hcn hne, ?_, ?_⟩,
    fun hmem hcn hok => cmd_exit_unbound oracle stamp iso hmem hcn hok⟩
  · obtain ⟨i, h2i, hfinal, _⟩ :=
      unique_path_taken w.state.history_dir hhit
    refine ⟨i, h2i, ?_⟩
    rw [save_eq hmem n iso]
    show some (unique_path (stems w.fs) w.state.history_dir n).1 = _
    rw [hfinal]
  · have hfresh : pathExists (stems w.fs)
        (unique_path (stems w.fs) w.state.history_dir n).1 = false :=
      unique_path_fresh _ _ _
    rw [save_eq hmem n iso]
    show pathExists (stems (fsWrite w.fs
      (unique_path (stems w.fs) w.state.history_dir n).1 _)) n = true
    rw [pathExists_iff, mem_stems_fsWrite]
    refine Or.inl ⟨pathExists_iff.mp hhit, fun hn => ?_⟩
    rw [← hn] at hfresh
    rw [hhit] at hfresh
    exact Bool.true_eq_false.mp hfresh

/-- A model call that always answers with a fixed title. -/
def okOracle : Oracle := fun _ => .ok "My Chat Title"

/-- Witness for C9: the unbound exit path at a concrete one-message world. -/
theorem claim_C9_witness :
    cmd_exit okOracle "s" "t" wOne =
      (save_conversation wOne
        (if sanitize_filename "My Chat Title" = "" then "s"
         else sanitize_filename "My Chat Title") "t", .exited) :=
  (claim_C9_exit wOne okOracle "s" "t" "" "My Chat Title").2.2 (by decide) rfl rfl

/-! ### Dispatch (C3) and purity of failed dispatch (C10) -/

/-- Claim C3: Dispatch algorithm over the real command table.  An input whose trim
is empty is not a command; otherwise the lowercased first whitespace token is
looked up exactly in the table: no match is NotACommand; a `takes_arg` match
is invoked with the trimmed remainder (`load`/`delete` with an empty
remainder print usage and change nothing); a zero-argument match with a
non-empty remainder is NotACommand (falls through to chat); a zero-argument
match with an empty remainder is invoked; every invoked case is Handled. -/
theorem claim_C3_dispatch (oracle : Oracle) (stamp iso : String) (w : World)
    (line : String) :
    (pyStrip line = "" →
      run_command (command_table oracle stamp iso) w line = ⟨w, .cont, false⟩)
    ∧ (pyStrip line ≠ "" →
      (command_table oracle stamp iso).find?
          (fun c => c.command == pyLower (headToken (pyStrip line))) = none →
      run_command (command_table oracle stamp iso) w line = ⟨w, .cont, false⟩)
    ∧ (∀ c, pyStrip line ≠ "" →
      (command_table oracle stamp iso).find?
          (fun c => c.command == pyLower (headToken (pyStrip line))) = some c →
      c.takes_arg = true →
      run_command (command_table oracle stamp iso) w line =
        ⟨(c.func (some (match restToken (pyStrip line) with
            | some r => pyStrip r | none => "")) w).1,
         (c.func (some (match restToken (pyStrip line) with
            | some r => pyStrip r | none => "")) w).2, true⟩)
    ∧ (∀ c, pyStrip line ≠ "" →
      (command_table oracle stamp iso).find?
          (fun c => c.command == pyLower (headToken (pyStrip line))) = some c →
      c.takes_arg = false →
      (match restToken (pyStrip line) with
        | some r => pyStrip r | none => "") ≠ "" →
      run_command (command_table oracle stamp iso) w line = ⟨w, .cont, false⟩)
    ∧ (∀ c, pyStrip line ≠ "" →
      (command_table oracle stamp iso).find?
          (fun c => c.command == pyLower (headToken (pyStrip line))) = some c →
      c.takes_arg = false →
      (match restToken (pyStrip line) with
        | some r => pyStrip r | none => "") = "" →
      run_command (command_table oracle stamp iso) w line =
        ⟨(c.func none w).1, (c.func none w).2, true⟩)
    ∧ run_command (command_table oracle stamp iso) w "load" = ⟨w, .cont, true⟩
    ∧ run_command (command_table oracle stamp iso) w "delete" = ⟨w, .cont, true⟩ := by
  refine ⟨fun h0 => ?_, fun h0 hf => ?_, fun c h0 hf hta => ?_,
    fun c h0 hf hta harg => ?_, fun c h0 hf hta harg => ?_, ?_, ?_⟩
  · simp only [run_command, h0, if_pos]
  · simp only [run_command, if_neg h0, hf]
  · simp only [run_command, if_neg h0, hf, hta, if_true]
  · simp only [run_command, if_neg h0, hf, hta, Bool.false_eq_true, if_false]
    rw [if_pos harg]
  · simp only [run_command, if_neg h0, hf, hta, Bool.false_eq_true, if_false, harg,
      ne_eq, not_true_eq_false, if_false]
  · rfl
  · rfl

/-- Witness for C3: dispatch at concrete lines — a zero-argument command
with trailing text falls through, and an unknown word is not a command. -/
theorem claim_C3_witness :
    run_command (command_table okOracle "s" "t") wOne "list extra text" =
      ⟨wOne, .cont, false⟩
    ∧ run_command (command_table okOracle "s" "t") wOne "  " = ⟨wOne, .cont, false⟩ := by
  constructor
  · exact (claim_C3_dispatch okOracle "s" "t" wOne "list extra text").2.2.2.1
      { command := "list", func := fun _ w => (w, .cont) }
      (by decide) rfl rfl (by decide)
  · exact (claim_C3_dispatch okOracle "s" "t" wOne "  ").1 (by decide)

/-- Claim C10: A failed dispatch is pure.  Whenever `run_command` reports
NotACommand (empty trimmed line, unknown head token, or a zero-argument
command given trailing text), the session state, bound name, catalog, and
directory are all returned exactly as they were, so the raw line reaches the
model as a chat turn against an unchanged conversation. -/
theorem claim_C10_failed_dispatch_pure (oracle : Oracle) (stamp iso : String)
    (w : World) (line : String)
    (h : (run_command (command_table oracle stamp iso) w line).handled = false) :
    run_command (command_table oracle stamp iso) w line = ⟨w, .cont, false⟩ := by
  by_cases h0 : pyStrip line = ""
  · simp only [run_command, h0, if_pos]
  · cases hf : (command_table oracle stamp iso).find?
        (fun c => c.command == pyLower (headToken (pyStrip line))) with
    | none => simp only [run_command, if_neg h0, hf]
    | some c =>
      by_cases hta : c.takes_arg = true
      · exfalso
        simp only [run_command, if_neg h0, hf, hta, if_true] at h
        exact Bool.true_eq_false.mp h
      · have hta' : c.takes_arg = false := Bool.eq_false_iff.mpr hta
        by_cases harg : (match restToken (pyStrip line) with
            | some r => pyStrip r | none => "") = ""
        · exfalso
          simp only [run_command, if_neg h0, hf, hta', Bool.false_eq_true, if_false,
            harg, ne_eq, not_true_eq_false] at h
          exact Bool.true_eq_false.mp h
        · simp only [run_command, if_neg h0, hf, hta', Bool.false_eq_true, if_false]
          rw [if_pos harg]

/-- Witness for C10 at a concrete non-command line. -/
theorem claim_C10_witness :
    run_command (command_table okOracle "s" "t") wOne "hello there" =
      ⟨wOne, .cont, false⟩ :=
  claim_C10_failed_dispatch_pure okOracle "s" "t" wOne "hello there" (by decide)

end TrashTool
